import Mathlib

/-!
Shallow embedding of the incremental, resumable, rate-limited retrieval
engine of the kraken-trading repository (src/src/api/api_client.py and
src/src/api/data_handler.py), together with theorems settling the frozen
claims about it.

Modelling conventions:
* Python dicts that are iterated in insertion order are modelled as
  association lists `List (String × ApiRecord)`.
* A numeric timestamp (JSON number) is modelled as a rational; Python's
  `int()` truncation toward zero is modelled exactly.  A timestamp carried
  as a string is modelled as a `String`, and Python's `int(str)` parser is
  modelled by `pyIntStr` (sign + digits only, fails on anything else, in
  particular on a decimal point).
* Code that can raise a Python exception is modelled in `Except String`;
  an `Except.error` models an exception propagating out of the function.
* The upstream API is modelled as the list of responses it would return to
  the successive requests of one run; a run that consumes the whole list
  simply stops (the theorems always supply scripts long enough).
-/

/-- A record's `time` field: either a JSON number (modelled as a rational)
or a string. -/
inductive TimeVal where
  | num (q : ℚ)
  | str (s : String)
deriving DecidableEq, Repr

/-- A trade or ledger record, keeping only the fields the engine reads:
the `time` field (absent when the key is missing) and the ledger `type`
field. -/
structure ApiRecord where
  time : Option TimeVal := none
  type : Option String := none
deriving DecidableEq, Repr

/-- A metadata value, as stored in the metadata dictionaries built by
`get_trade_history` and `get_staking_rewards`. -/
inductive MValue where
  | s (v : String)
  | i (v : Int)
  | oi (v : Option Int)
  | os (v : Option String)
deriving DecidableEq, Repr

/-- Python `int()` applied to a rational number: truncation toward zero. -/
def pyTrunc (q : ℚ) : Int :=
  if 0 ≤ q then ⌊q⌋ else ⌈q⌉

/-- Python `int()` applied to a string: optional sign followed by digits;
anything else (in particular a decimal point) raises `ValueError`,
modelled as `none`. -/
def pyIntStr (s : String) : Option Int :=
  let digitsVal : List Char → Int :=
    fun ds => ds.foldl (fun n c => n * 10 + (Int.ofNat (c.toNat - '0'.toNat))) 0
  match s.data with
  | [] => none
  | '-' :: ds => if ds ≠ [] ∧ ds.all Char.isDigit then some (-(digitsVal ds)) else none
  | '+' :: ds => if ds ≠ [] ∧ ds.all Char.isDigit then some (digitsVal ds) else none
  | ds => if ds.all Char.isDigit then some (digitsVal ds) else none

/-- Python `int()` on a time value. -/
def pyInt : TimeVal → Option Int
  | .num q => some (pyTrunc q)
  | .str s => pyIntStr s

/-- The list comprehension
`[int(record[timestamp_key]) for record in records if timestamp_key in record]`
of `extract_record_timestamps`: records without the key are skipped, a
value `int()` cannot parse raises (error propagates). -/
def extractTimestamps : List ApiRecord → Except String (List Int)
  | [] => .ok []
  | r :: rs =>
    match r.time with
    | none => extractTimestamps rs
    | some tv =>
      match pyInt tv with
      | none => .error "ValueError: invalid literal for int"
      | some n => (extractTimestamps rs).map (fun ts => n :: ts)

/-- Python `min` over a nonempty list given as head and tail. -/
def foldMin (x : Int) (xs : List Int) : Int := xs.foldl min x

/-- Python `max` over a nonempty list given as head and tail. -/
def foldMax (x : Int) (xs : List Int) : Int := xs.foldl max x

/-- `extract_record_timestamps` from src/src/api/data_handler.py: returns
`(None, None)` for an empty record list, otherwise the `(min, max)` of the
present, `int()`-coerced `time` fields, or `(None, None)` again when no
record carries the key. -/
def extract_record_timestamps (records : List ApiRecord) :
    Except String (Option Int × Option Int) :=
  if records.isEmpty then .ok (none, none)
  else
    match extractTimestamps records with
    | .error msg => .error msg
    | .ok [] => .ok (none, none)
    | .ok (t :: rest) => .ok (some (foldMin t rest), some (foldMax t rest))

/-! ## Backoff Request Executor (`_make_request_with_backoff`) -/

/-- An upstream response as seen by the backoff executor: only its error
list matters for the retry decision. -/
structure ApiResponse where
  error : List String
deriving DecidableEq, Repr

/-- ASCII lowercasing of one character, as `str.lower()` does on the
ASCII error strings at hand. -/
def pyLower (c : Char) : Char :=
  if 65 ≤ c.toNat ∧ c.toNat ≤ 90 then Char.ofNat (c.toNat + 32) else c

/-- Whether the first list is a prefix of the second. -/
def isPrefixOfCL : List Char → List Char → Bool
  | [], _ => true
  | _ :: _, [] => false
  | a :: as, b :: bs => a == b && isPrefixOfCL as bs

/-- Substring search over character lists (Python's `pat in s`). -/
def containsSubCL (pat : List Char) : List Char → Bool
  | [] => pat.isEmpty
  | c :: rest => isPrefixOfCL pat (c :: rest) || containsSubCL pat rest

/-- `"rate limit exceeded" in e.lower()`: case-insensitive substring
test. -/
def hasRateLimitText (e : String) : Bool :=
  containsSubCL "rate limit exceeded".data (e.data.map pyLower)

/-- `error and any("rate limit exceeded" in e.lower() for e in error)`. -/
def isRateLimited (r : ApiResponse) : Bool :=
  !r.error.isEmpty && r.error.any hasRateLimitText

/-- The retry loop of `_make_request_with_backoff`.  `resp i` is the
response the `i`-th request would receive; the function returns the
response returned to the caller (`none` models the final `return {}` after
exhausting retries), the number of requests actually issued, and the list
of sleep durations performed, in order. -/
def backoffGo (resp : Nat → ApiResponse) :
    Nat → Nat → Nat → List Nat → Nat → Option ApiResponse × Nat × List Nat
  | attempt, remaining, backoff, sleeps, made =>
    match remaining with
    | 0 => (none, made, sleeps)
    | r + 1 =>
      let response := resp attempt
      if isRateLimited response then
        backoffGo resp (attempt + 1) r (backoff * 2) (sleeps ++ [backoff]) (made + 1)
      else
        (some response, made + 1, sleeps)

/-- `_make_request_with_backoff`: `max_retries = 5`, initial backoff 2s. -/
def make_request_with_backoff (resp : Nat → ApiResponse) :
    Option ApiResponse × Nat × List Nat :=
  backoffGo resp 1 5 2 [] 0

/-! ## Trade-history sync (`get_trade_history`) -/

/-- One response of the trade-history endpoint: `invalid` covers the
"no response / `result` or `trades` key missing" cases, `page` carries the
ordered `trades` dict and the optional reported `count`. -/
inductive TradesResponse where
  | invalid
  | page (trades : List (String × ApiRecord)) (count : Option Int)
deriving DecidableEq, Repr

/-- The records of a trade-history response. -/
def pageItems : TradesResponse → List (String × ApiRecord)
  | .invalid => []
  | .page items _ => items

/-- Result of the per-batch `for trade_id, trade_data in trades.items()`
loop of `get_trade_history`. -/
structure BatchOut where
  acc : List (String × ApiRecord)
  seen : List String
  newAdded : Nat
  stopped : Bool
deriving DecidableEq, Repr

/-- The inner loop of `get_trade_history` over one batch: stop when the
stored trade id is reached, otherwise insert every unseen id. -/
def processTradesBatch (stopId : Option String) :
    List (String × ApiRecord) → List (String × ApiRecord) → List String → Nat → BatchOut
  | [], acc, seen, n => ⟨acc, seen, n, false⟩
  | (tid, td) :: rest, acc, seen, n =>
    if some tid = stopId then ⟨acc, seen, n, true⟩
    else if tid ∈ seen then processTradesBatch stopId rest acc seen n
    else processTradesBatch stopId rest (acc ++ [(tid, td)]) (seen ++ [tid]) (n + 1)

/-- The mutable state of the `while True` loop of `get_trade_history`.
`processed` records, per batch, the `trades` dicts that entered the inner
for-loop, and `newCounts` the per-batch `new_trades_added` counters; both
exist only so that theorems can talk about them. -/
structure TST where
  acc : List (String × ApiRecord)
  seen : List String
  latest : Option String
  total : Option Int
  firstDone : Bool
  fetches : Nat
  processed : List (List (String × ApiRecord))
  newCounts : List Nat
deriving DecidableEq, Repr

/-- Initial loop state of `get_trade_history`. -/
def initTST : TST := ⟨[], [], none, none, false, 0, [], []⟩

/-- The `while True` pagination loop of `get_trade_history`, consuming the
scripted responses in order. -/
def tradesLoop (stopId : Option String) : TST → List TradesResponse → TST
  | st, [] => st
  | st, resp :: rest =>
    let st1 : TST := { st with fetches := st.fetches + 1 }
    match resp with
    | .invalid => st1
    | .page trades count =>
      if trades.isEmpty then st1
      else
        let st2 : TST :=
          if st1.firstDone then st1
          else { st1 with
            latest := trades.head?.map Prod.fst
            total := count
            firstDone := true }
        let out := processTradesBatch stopId trades st2.acc st2.seen 0
        let st3 : TST := { st2 with
          acc := out.acc
          seen := out.seen
          processed := st2.processed ++ [trades]
          newCounts := st2.newCounts ++ [out.newAdded] }
        if out.stopped then st3 else tradesLoop stopId st3 rest

/-- `stop_at_trade_id = last_stored_trade_id if last_stored_trade_id else
None`: Python truthiness maps an empty stored string to `None`. -/
def stop_at_of (stored : Option String) : Option String :=
  match stored with
  | some s => if s = "" then none else some s
  | none => none

/-- `get_trade_history`: run the pagination loop, and, unless nothing was
accumulated, derive the timestamp range and build the metadata dict. -/
def get_trade_history (storedId : Option String) (now : Int)
    (responses : List TradesResponse) :
    Except String (List (String × ApiRecord) × List (String × MValue)) :=
  let st := tradesLoop (stop_at_of storedId) initTST responses
  if st.acc.isEmpty then .ok ([], [])
  else
    match extract_record_timestamps (st.acc.map Prod.snd) with
    | .error msg => .error msg
    | .ok (ts, te) =>
      .ok (st.acc,
        [("data_type", MValue.s "trades"), ("timestamp", MValue.i now),
         ("record_timestamp_start", MValue.oi ts),
         ("record_timestamp_end", MValue.oi te),
         ("last_trade_id", MValue.os st.latest)])

/-! ## Staking-rewards sync (`get_staking_rewards`) -/

/-- One response of the ledger endpoint. -/
inductive LedgerResponse where
  | invalid
  | page (ledger : List (String × ApiRecord))
deriving DecidableEq, Repr

/-- The dict comprehension keeping only entries whose `type` is
`"staking"`. -/
def stakingOf (ledger : List (String × ApiRecord)) : List (String × ApiRecord) :=
  ledger.filter (fun kv => kv.2.type = some "staking")

/-- Python `timestamp <= min_timestamp` where `timestamp` is
`entry_data.get("time")`: comparing `None` or a string with an int raises
`TypeError`. -/
def pyLeTime : Option TimeVal → Int → Except String Bool
  | none, _ => .error "TypeError: comparison of NoneType and int"
  | some (.num q), w => .ok (decide (q ≤ (w : ℚ)))
  | some (.str _), _ => .error "TypeError: comparison of str and int"

/-- Result of the per-batch loop of `get_staking_rewards`. -/
structure RBatchOut where
  acc : List (String × ApiRecord)
  seen : List String
  newAdded : Nat
deriving DecidableEq, Repr

/-- The inner loop of `get_staking_rewards` over the staking entries of
one batch: `if min_timestamp and timestamp <= min_timestamp: continue`,
then insert every unseen id.  Python truthiness makes a `0` watermark skip
the comparison entirely. -/
def processRewardsBatch (minT : Option Int) :
    List (String × ApiRecord) → List (String × ApiRecord) → List String → Nat →
    Except String RBatchOut
  | [], acc, seen, n => .ok ⟨acc, seen, n⟩
  | (eid, ed) :: rest, acc, seen, n =>
    let skipE : Except String Bool :=
      match minT with
      | some w => if w ≠ 0 then pyLeTime ed.time w else .ok false
      | none => .ok false
    match skipE with
    | .error msg => .error msg
    | .ok skip =>
      if skip then processRewardsBatch minT rest acc seen n
      else if eid ∈ seen then processRewardsBatch minT rest acc seen n
      else processRewardsBatch minT rest (acc ++ [(eid, ed)]) (seen ++ [eid]) (n + 1)

/-- The mutable state of the `while True` loop of `get_staking_rewards`. -/
structure RST where
  acc : List (String × ApiRecord)
  seen : List String
  fetches : Nat
  processed : List (List (String × ApiRecord))
  newCounts : List Nat
deriving DecidableEq, Repr

/-- Initial loop state of `get_staking_rewards`. -/
def initRST : RST := ⟨[], [], 0, [], []⟩

/-- The `while True` pagination loop of `get_staking_rewards`: stop on an
invalid response, an empty ledger, a batch adding zero new rewards, or a
ledger shorter than the batch size of 50. -/
def rewardsLoop (minT : Option Int) : RST → List LedgerResponse → Except String RST
  | st, [] => .ok st
  | st, resp :: rest =>
    let st1 : RST := { st with fetches := st.fetches + 1 }
    match resp with
    | .invalid => .ok st1
    | .page ledger =>
      let staking := stakingOf ledger
      if ledger.isEmpty then .ok st1
      else
        match processRewardsBatch minT staking st1.acc st1.seen 0 with
        | .error msg => .error msg
        | .ok out =>
          let st2 : RST := { st1 with
            acc := out.acc
            seen := out.seen
            processed := st1.processed ++ [staking]
            newCounts := st1.newCounts ++ [out.newAdded] }
          if out.newAdded = 0 then .ok st2
          else if ledger.length < 50 then .ok st2
          else rewardsLoop minT st2 rest

/-- `get_staking_rewards`: run the pagination loop, then always derive the
timestamp range and build the (four-field) metadata dict — there is no
empty-accumulator early return here, unlike `get_trade_history`. -/
def get_staking_rewards (minT : Option Int) (now : Int)
    (responses : List LedgerResponse) :
    Except String (List (String × ApiRecord) × List (String × MValue)) :=
  match rewardsLoop minT initRST responses with
  | .error msg => .error msg
  | .ok st =>
    match extract_record_timestamps (st.acc.map Prod.snd) with
    | .error msg => .error msg
    | .ok (ts, te) =>
      .ok (st.acc,
        [("data_type", MValue.s "rewards"), ("timestamp", MValue.i now),
         ("record_timestamp_start", MValue.oi ts),
         ("record_timestamp_end", MValue.oi te)])

/-! ## Shared sample records for concrete runs -/

/-- A record with no fields, as a generic trade payload. -/
def sampleRec : ApiRecord := {}

/-- A trade record with numeric time `q`. -/
def numRec (q : ℚ) : ApiRecord := { time := some (TimeVal.num q) }

/-- A staking ledger entry with numeric time `q`. -/
def stakingRec (q : ℚ) : ApiRecord := { time := some (TimeVal.num q), type := some "staking" }

/-! ## C4 — backoff bound -/

/-- C4: if every attempt's response reports a rate-limit error,
`_make_request_with_backoff` issues exactly 5 requests, sleeps
2, 4, 8, 16, 32 seconds, and returns the empty response; a response with
no rate-limit error is returned immediately after a single request with no
sleep. -/
theorem backoff_spec (resp1 resp2 : Nat → ApiResponse) :
    ((∀ i, isRateLimited (resp1 i) = true) →
      make_request_with_backoff resp1 = (none, 5, [2, 4, 8, 16, 32]))
    ∧ (isRateLimited (resp2 1) = false →
      make_request_with_backoff resp2 = (some (resp2 1), 1, [])) := by
  constructor
  · intro h
    simp [make_request_with_backoff, backoffGo, h]
  · intro h
    simp [make_request_with_backoff, backoffGo, h]

/-- Witness for C4 at concrete response streams. -/
theorem backoff_spec_witness :
    make_request_with_backoff (fun _ => ⟨["EAPI:Rate limit exceeded"]⟩)
      = (none, 5, [2, 4, 8, 16, 32])
    ∧ make_request_with_backoff (fun _ => ⟨["EQuery:Unknown asset"]⟩)
      = (some ⟨["EQuery:Unknown asset"]⟩, 1, []) :=
  ⟨(backoff_spec (fun _ => ⟨["EAPI:Rate limit exceeded"]⟩)
      (fun _ => ⟨["EQuery:Unknown asset"]⟩)).1 (fun _ => by decide),
   (backoff_spec (fun _ => ⟨["EAPI:Rate limit exceeded"]⟩)
      (fun _ => ⟨["EQuery:Unknown asset"]⟩)).2 (by decide)⟩

/-! ## C9 — missing `time` field during a resumed rewards sync -/

/-- C9: the claim (and spec §7) says a record missing its `time` field
never causes an exception to escape the pagination loop, also when a prior
watermark timestamp is compared against each record's time.  The code
violates this: with a stored watermark of 100, a staking entry without a
`time` field makes `get_staking_rewards` evaluate `None <= 100`, raising a
`TypeError` that propagates out of the loop. -/
theorem missing_time_typeerror :
    get_staking_rewards (some 100) 0
      [LedgerResponse.page [("L1", ⟨none, some "staking"⟩)]]
      = .error "TypeError: comparison of NoneType and int" := by
  rfl

/-! ## Counterexamples to the claims as stated -/

/-- C1 counterexample: the claim says the returned set never contains any
record at or after the watermark id's position in the stop batch.  Here
the stored id "T" sits at position 1 of batch 2, whose position-2 record
"A" also occurred in batch 1: the run stops at "T" yet returns exactly
["A"], a record at a position after "T" in the stop batch. -/
theorem trades_stop_claim_counterexample :
    (tradesLoop (stop_at_of (some "T")) initTST
      [TradesResponse.page [("A", sampleRec)] none,
       TradesResponse.page [("T", sampleRec), ("A", sampleRec)] none]).acc.map Prod.fst
      = ["A"]
    ∧ "A" ∈ (pageItems
        (TradesResponse.page [("T", sampleRec), ("A", sampleRec)] none)).map Prod.fst := by
  exact ⟨rfl, by decide⟩

/-- C2 counterexample: on an empty first batch, `get_staking_rewards`
returns empty records but still produces a (nonempty) metadata document,
contradicting the claim that both sync operations produce no watermark
metadata when the accumulated set is empty. -/
theorem empty_sync_metadata_counterexample :
    get_staking_rewards none 7 [LedgerResponse.page []]
      = .ok ([],
        [("data_type", MValue.s "rewards"), ("timestamp", MValue.i 7),
         ("record_timestamp_start", MValue.oi none),
         ("record_timestamp_end", MValue.oi none)])
    ∧ ([("data_type", MValue.s "rewards"), ("timestamp", MValue.i 7),
        ("record_timestamp_start", MValue.oi none),
        ("record_timestamp_end", MValue.oi none)] : List (String × MValue)) ≠ [] := by
  exact ⟨rfl, by decide⟩

/-- C3 counterexample: a nonempty record set whose only record lacks a
`time` field yields `(None, None)`, refuting the claimed "iff the set is
empty"; and a floating-point string timestamp is not truncated but raises
a `ValueError` (Python `int("...5")` rejects a decimal point). -/
theorem extract_timestamps_claim_counterexample :
    extract_record_timestamps [sampleRec] = .ok (none, none)
    ∧ ([sampleRec] : List ApiRecord) ≠ []
    ∧ extract_record_timestamps [⟨some (TimeVal.str "1688888888.5"), none⟩]
        = .error "ValueError: invalid literal for int" := ⟨rfl, by decide, rfl⟩

/-- C5 counterexample: in `get_trade_history` a repeated page adds zero
new trades (`newCounts = [1, 0]`), yet pagination does not stop there: a
third fetch is issued (it stops only on the following empty page). -/
theorem zero_new_records_counterexample :
    (tradesLoop none initTST
      [TradesResponse.page [("X", sampleRec)] none,
       TradesResponse.page [("X", sampleRec)] none,
       TradesResponse.page [] none]).newCounts = [1, 0]
    ∧ (tradesLoop none initTST
      [TradesResponse.page [("X", sampleRec)] none,
       TradesResponse.page [("X", sampleRec)] none,
       TradesResponse.page [] none]).fetches = 3 := ⟨rfl, rfl⟩

/-- C7 counterexample: the rewards metadata produced by
`get_staking_rewards` has only four fields and no `last_reward_id`. -/
theorem reward_id_metadata_counterexample :
    get_staking_rewards none 7 [LedgerResponse.page [("L1", stakingRec 5)]]
      = .ok ([("L1", stakingRec 5)],
        [("data_type", MValue.s "rewards"), ("timestamp", MValue.i 7),
         ("record_timestamp_start", MValue.oi (some 5)),
         ("record_timestamp_end", MValue.oi (some 5))])
    ∧ "last_reward_id" ∉
        ["data_type", "timestamp", "record_timestamp_start", "record_timestamp_end"] := by
  exact ⟨rfl, by decide⟩

/-- C8 counterexample: the first page reports a total of 1 trade, so
after the first batch the offset (50) is at least the total, yet
`get_trade_history` issues a second fetch (stopping only on the empty
page it returns): 2 fetches, not 1. -/
theorem offset_total_counterexample :
    (tradesLoop none initTST
      [TradesResponse.page [("T1", sampleRec)] (some 1),
       TradesResponse.page [] none]).fetches = 2
    ∧ (tradesLoop none initTST
      [TradesResponse.page [("T1", sampleRec)] (some 1),
       TradesResponse.page [] none]).total = some 1
    ∧ (1 : Int) ≤ 50 := ⟨rfl, rfl, by decide⟩

/-- C10 counterexample: with a loaded rewards watermark of `W = 0`,
Python's truthiness test `if min_timestamp and ...` disables the filter,
so an entry with time 0 (not strictly greater than `W`) is returned. -/
theorem rewards_watermark_zero_counterexample :
    get_staking_rewards (some 0) 0 [LedgerResponse.page [("L1", stakingRec 0)]]
      = .ok ([("L1", stakingRec 0)],
        [("data_type", MValue.s "rewards"), ("timestamp", MValue.i 0),
         ("record_timestamp_start", MValue.oi (some 0)),
         ("record_timestamp_end", MValue.oi (some 0))])
    ∧ ¬ ((0 : ℚ) < (0 : ℚ)) := ⟨rfl, by norm_num⟩

/-! ## C3 — Watermark Deriver (`extract_record_timestamps`) -/

/-- Folding `min` over a list never exceeds the start value. -/
lemma foldMin_le (x : Int) (xs : List Int) : foldMin x xs ≤ x := by
  induction xs generalizing x with
  | nil => simp [foldMin]
  | cons y ys ih =>
    simpa [foldMin] using le_trans (ih (min x y)) (min_le_left x y)

/-- Folding `max` over a list is at least the start value. -/
lemma le_foldMax (x : Int) (xs : List Int) : x ≤ foldMax x xs := by
  induction xs generalizing x with
  | nil => simp [foldMax]
  | cons y ys ih =>
    simpa [foldMax] using le_trans (le_max_left x y) (ih (max x y))

/-- The timestamp comprehension returns the empty list exactly when no
record carries a `time` field. -/
lemma extractTimestamps_nil_iff (records : List ApiRecord) :
    extractTimestamps records = .ok [] ↔ ∀ r ∈ records, r.time = none := by
  induction records with
  | nil => simp [extractTimestamps]
  | cons r rs ih =>
    cases h : r.time with
    | none => simp [extractTimestamps, h, ih]
    | some tv =>
      cases hp : pyInt tv with
      | none => simp [extractTimestamps, h, hp]
      | some n =>
        cases he : extractTimestamps rs with
        | error msg => simp [extractTimestamps, h, hp, he, Except.map]
        | ok ts => simp [extractTimestamps, h, hp, he, Except.map]

/-- A present `time` field that `int()` cannot parse makes the
comprehension raise, wherever it sits in the list. -/
lemma extractTimestamps_error (records : List ApiRecord) :
    (∃ r ∈ records, ∃ s, r.time = some (TimeVal.str s) ∧ pyIntStr s = none) →
    ∃ msg, extractTimestamps records = .error msg := by
  induction records with
  | nil => simp
  | cons r rs ih =>
    rintro ⟨p, hp, s, hs, hbad⟩
    rcases List.mem_cons.mp hp with hpr | hprs
    · subst hpr
      exact ⟨"ValueError: invalid literal for int",
        by simp [extractTimestamps, hs, pyInt, hbad]⟩
    · obtain ⟨msg, hmsg⟩ := ih ⟨p, hprs, s, hs, hbad⟩
      cases h : r.time with
      | none => exact ⟨msg, by simp [extractTimestamps, h, hmsg]⟩
      | some tv =>
        cases hp2 : pyInt tv with
        | none => exact ⟨"ValueError: invalid literal for int",
            by simp [extractTimestamps, h, hp2]⟩
        | some n => exact ⟨msg, by simp [extractTimestamps, h, hp2, hmsg, Except.map]⟩

/-- C3 (amended): on success, `extract_record_timestamps` yields
`(None, None)` exactly when no accumulated record carries a `time` field
(in particular for the empty set), and whenever both bounds are present
they satisfy start ≤ end.  Numeric timestamps are truncated toward zero
by `int()`, but a floating-point *string* timestamp is not truncated: it
raises a `ValueError` that propagates. -/
theorem extract_timestamps_spec (records : List ApiRecord) :
    (∀ res, extract_record_timestamps records = .ok res →
      (res = (none, none) ↔ ∀ r ∈ records, r.time = none))
    ∧ (∀ a b, extract_record_timestamps records = .ok (some a, some b) → a ≤ b)
    ∧ ((∃ r ∈ records, ∃ s, r.time = some (TimeVal.str s) ∧ pyIntStr s = none) →
      ∃ msg, extract_record_timestamps records = .error msg) := by
  refine ⟨?_, ?_, ?_⟩
  · intro res h
    by_cases hre : records.isEmpty
    · rw [List.isEmpty_iff] at hre
      subst hre
      simp [extract_record_timestamps] at h
      simp [← h]
    · rw [extract_record_timestamps, if_neg hre] at h
      cases he : extractTimestamps records with
      | error msg => rw [he] at h; simp at h
      | ok ts =>
        rw [he] at h
        cases ts with
        | nil =>
          have hres : res = (none, none) := (Except.ok.inj h).symm
          subst hres
          exact iff_of_true rfl ((extractTimestamps_nil_iff records).mp he)
        | cons t rest =>
          have hpair := Except.ok.inj h
          constructor
          · intro hres
            rw [hres] at hpair
            simp at hpair
          · intro hall
            have := (extractTimestamps_nil_iff records).mpr hall
            rw [this] at he
            simp at he
  · intro a b h
    by_cases hre : records.isEmpty
    · rw [List.isEmpty_iff] at hre
      subst hre
      simp [extract_record_timestamps] at h
    · rw [extract_record_timestamps, if_neg hre] at h
      cases he : extractTimestamps records with
      | error msg => rw [he] at h; simp at h
      | ok ts =>
        rw [he] at h
        cases ts with
        | nil => simp at h
        | cons t rest =>
          have hpair := Except.ok.inj h
          have ha := congrArg Prod.fst hpair
          have hb := congrArg Prod.snd hpair
          simp only at ha hb
          rw [← Option.some.inj ha, ← Option.some.inj hb]
          exact le_trans (foldMin_le t rest) (le_foldMax t rest)
  · intro hbad
    have hre : ¬ records.isEmpty := by
      rcases hbad with ⟨p, hp, -⟩
      cases records with
      | nil => simp at hp
      | cons r rs => simp
    obtain ⟨msg, hmsg⟩ := extractTimestamps_error records hbad
    exact ⟨msg, by simp [extract_record_timestamps, hre, hmsg]⟩

/-- Witness for C3 at a concrete record list: times 3 and 7 give the
range (3, 7) and 3 ≤ 7 via the theorem. -/
theorem extract_timestamps_spec_witness :
    extract_record_timestamps [numRec 3, numRec 7] = .ok (some 3, some 7)
    ∧ (3 : Int) ≤ 7 :=
  ⟨rfl, (extract_timestamps_spec [numRec 3, numRec 7]).2.1 3 7 rfl⟩

/-! ## C2 — empty accumulated set at loop exit -/

/-- C2 (amended): when the accumulated set is empty at loop exit,
`get_trade_history` returns empty collections with *no* metadata, while
`get_staking_rewards` returns empty records but still produces a metadata
document whose record-timestamp bounds are `None`. -/
theorem empty_sync_returns (storedId : Option String) (now : Int)
    (rs : List TradesResponse)
    (h : (tradesLoop (stop_at_of storedId) initTST rs).acc = []) :
    get_trade_history storedId now rs = .ok ([], [])
    ∧ ∀ (minT : Option Int) (now2 : Int) (rs2 : List LedgerResponse) (st : RST),
        rewardsLoop minT initRST rs2 = .ok st → st.acc = [] →
        get_staking_rewards minT now2 rs2
          = .ok ([], [("data_type", MValue.s "rewards"), ("timestamp", MValue.i now2),
                      ("record_timestamp_start", MValue.oi none),
                      ("record_timestamp_end", MValue.oi none)]) := by
  constructor
  · simp [get_trade_history, h]
  · intro minT now2 rs2 st hloop hacc
    simp [get_staking_rewards, hloop, hacc, extract_record_timestamps]

/-- Witness for C2 at concrete runs: an exhausted trade script and a
rewards run whose first batch is empty. -/
theorem empty_sync_returns_witness :
    get_trade_history none 3 [] = .ok ([], [])
    ∧ get_staking_rewards none 3 [LedgerResponse.page []]
      = .ok ([], [("data_type", MValue.s "rewards"), ("timestamp", MValue.i 3),
                  ("record_timestamp_start", MValue.oi none),
                  ("record_timestamp_end", MValue.oi none)]) :=
  ⟨(empty_sync_returns none 3 [] rfl).1,
   (empty_sync_returns none 3 [] rfl).2 none 3 [LedgerResponse.page []]
     ⟨[], [], 1, [], []⟩ rfl rfl⟩

/-! ## C5 — zero new records as a stop signal -/

/-- C5 (amended): `get_staking_rewards` stops after a non-empty batch
that adds zero new records — the run's outcome is independent of any
responses after that batch (no further fetch is issued).
`get_trade_history` tracks the same counter but does *not* stop on it
(see the counterexample). -/
theorem rewards_zero_new_stops (minT : Option Int) (st : RST)
    (L : List (String × ApiRecord)) (rest : List LedgerResponse)
    (a : List (String × ApiRecord)) (s : List String)
    (hL : ¬ L.isEmpty)
    (hpb : processRewardsBatch minT (stakingOf L) st.acc st.seen 0 = .ok ⟨a, s, 0⟩) :
    rewardsLoop minT st (LedgerResponse.page L :: rest)
      = rewardsLoop minT st [LedgerResponse.page L] := by
  simp [rewardsLoop, hL, hpb]

/-- Witness for C5: a batch whose only entry is already accumulated adds
zero new records, so the trailing response is never fetched. -/
theorem rewards_zero_new_stops_witness :
    rewardsLoop none ⟨[("X", stakingRec 1)], ["X"], 1, [], []⟩
        [LedgerResponse.page [("X", stakingRec 1)], LedgerResponse.invalid]
      = rewardsLoop none ⟨[("X", stakingRec 1)], ["X"], 1, [], []⟩
        [LedgerResponse.page [("X", stakingRec 1)]] :=
  rewards_zero_new_stops none ⟨[("X", stakingRec 1)], ["X"], 1, [], []⟩
    [("X", stakingRec 1)] [LedgerResponse.invalid]
    [("X", stakingRec 1)] ["X"] (by decide) rfl

/-! ## C7 — resume identifier in the derived metadata -/

/-- Once the first batch has been processed, the pagination loop never
changes `latest_trade_id` again. -/
lemma tradesLoop_latest_of_firstDone (sid : Option String) :
    ∀ (rs : List TradesResponse) (st : TST), st.firstDone = true →
    (tradesLoop sid st rs).latest = st.latest := by
  intro rs
  induction rs with
  | nil => intro st h; rfl
  | cons r rest ih =>
    intro st h
    cases r with
    | invalid => simp [tradesLoop]
    | page items c =>
      by_cases hi : items.isEmpty
      · simp [tradesLoop, hi]
      · simp only [tradesLoop, hi, h, if_true, if_false, Bool.false_eq_true,
          not_false_eq_true, ite_true, ite_false]
        split
        · rfl
        · exact ih _ rfl

/-- `latest_trade_id` is the first key of the first (non-empty) batch. -/
lemma tradesLoop_first_page (sid : Option String) (i : String) (d : ApiRecord)
    (tl : List (String × ApiRecord)) (c : Option Int) (rest : List TradesResponse) :
    (tradesLoop sid initTST (TradesResponse.page ((i, d) :: tl) c :: rest)).latest
      = some i := by
  simp [tradesLoop, initTST]
  split
  · simp
  · rw [tradesLoop_latest_of_firstDone sid rest]
    simp

/-- C7 (amended): the trade-sync metadata's `last_trade_id` equals the
first trade id of the first (non-empty) batch of the run; the rewards
metadata, however, contains no `last_reward_id` field at all — the
claimed generalization to rewards is not implemented. -/
theorem watermark_identifier_spec (storedId : Option String) (now : Int)
    (i : String) (d : ApiRecord) (tl : List (String × ApiRecord)) (c : Option Int)
    (rest : List TradesResponse)
    (tr : List (String × ApiRecord)) (md : List (String × MValue))
    (h : get_trade_history storedId now (TradesResponse.page ((i, d) :: tl) c :: rest)
          = .ok (tr, md))
    (hne : tr ≠ []) :
    ("last_trade_id", MValue.os (some i)) ∈ md
    ∧ ∀ (minT : Option Int) (now2 : Int) (rs2 : List LedgerResponse)
        (a : List (String × ApiRecord)) (m : List (String × MValue)),
        get_staking_rewards minT now2 rs2 = .ok (a, m) →
        "last_reward_id" ∉ m.map Prod.fst := by
  constructor
  · unfold get_trade_history at h
    simp only [] at h
    split at h
    · exact absurd (congrArg Prod.fst (Except.ok.inj h)).symm hne
    · split at h
      · simp at h
      · have hmd := congrArg Prod.snd (Except.ok.inj h)
        simp only at hmd
        rw [← hmd, tradesLoop_first_page]
        simp
  · intro minT now2 rs2 a m hm
    unfold get_staking_rewards at hm
    split at hm
    · simp at hm
    · split at hm
      · simp at hm
      · have hmd := congrArg Prod.snd (Except.ok.inj hm)
        simp only at hmd
        rw [← hmd]
        simp

/-- Witness for C7 at concrete runs of both sync operations. -/
theorem watermark_identifier_spec_witness :
    ("last_trade_id", MValue.os (some "T1")) ∈
      ([("data_type", MValue.s "trades"), ("timestamp", MValue.i 7),
        ("record_timestamp_start", MValue.oi (some 5)),
        ("record_timestamp_end", MValue.oi (some 5)),
        ("last_trade_id", MValue.os (some "T1"))] : List (String × MValue))
    ∧ "last_reward_id" ∉
      ([("data_type", MValue.s "rewards"), ("timestamp", MValue.i 7),
        ("record_timestamp_start", MValue.oi (some 5)),
        ("record_timestamp_end", MValue.oi (some 5))] : List (String × MValue)).map Prod.fst :=
  ⟨(watermark_identifier_spec none 7 "T1" (numRec 5) [] none [] [("T1", numRec 5)]
      [("data_type", MValue.s "trades"), ("timestamp", MValue.i 7),
       ("record_timestamp_start", MValue.oi (some 5)),
       ("record_timestamp_end", MValue.oi (some 5)),
       ("last_trade_id", MValue.os (some "T1"))] rfl (by decide)).1,
   (watermark_identifier_spec none 7 "T1" (numRec 5) [] none [] [("T1", numRec 5)]
      [("data_type", MValue.s "trades"), ("timestamp", MValue.i 7),
       ("record_timestamp_start", MValue.oi (some 5)),
       ("record_timestamp_end", MValue.oi (some 5)),
       ("last_trade_id", MValue.os (some "T1"))] rfl (by decide)).2
     none 7 [LedgerResponse.page [("L1", stakingRec 5)]] [("L1", stakingRec 5)]
     [("data_type", MValue.s "rewards"), ("timestamp", MValue.i 7),
      ("record_timestamp_start", MValue.oi (some 5)),
      ("record_timestamp_end", MValue.oi (some 5))] rfl⟩

/-! ## C8 — reported total count is captured but never used -/

/-- Remove the reported count from a response. -/
def eraseCount : TradesResponse → TradesResponse
  | .invalid => .invalid
  | .page t _ => .page t none

/-- Every observable component of the trade-loop state except the stored
`total_expected`. -/
def TST.obs (s : TST) :
    List (String × ApiRecord) × List String × Option String × Bool × Nat ×
    List (List (String × ApiRecord)) × List Nat :=
  (s.acc, s.seen, s.latest, s.firstDone, s.fetches, s.processed, s.newCounts)

/-- The pagination loop never reads the stored total nor the reported
counts: spelled-out states differing only in `total`, run on scripts
differing only in reported counts, stay observationally equal. -/
lemma tradesLoop_total_irrel (sid : Option String) :
    ∀ (rs : List TradesResponse) (acc : List (String × ApiRecord))
      (seen : List String) (latest : Option String) (t t' : Option Int)
      (fd : Bool) (f : Nat) (pr : List (List (String × ApiRecord))) (nc : List Nat),
    (tradesLoop sid ⟨acc, seen, latest, t, fd, f, pr, nc⟩ rs).obs
      = (tradesLoop sid ⟨acc, seen, latest, t', fd, f, pr, nc⟩ (rs.map eraseCount)).obs := by
  intro rs
  induction rs with
  | nil => intros; rfl
  | cons r rest ih =>
    intro acc seen latest t t' fd f pr nc
    cases r with
    | invalid => rfl
    | page items c =>
      by_cases hi : items.isEmpty
      · simp [tradesLoop, eraseCount, hi, TST.obs]
      · cases hst : (processTradesBatch sid items acc seen 0).stopped with
        | true => cases fd <;> simp [tradesLoop, eraseCount, hi, hst, TST.obs]
        | false =>
          cases fd <;> simp [tradesLoop, eraseCount, hi, hst] <;>
            exact ih _ _ _ _ _ _ _ _ _

/-- C8 (amended): the total reported by the first page is captured into
the session state but never used by any stop condition: the loop's entire
observable behaviour (accumulated trades, seen ids, latest id, fetch
count, processed batches, new-record counters) is unchanged when every
reported count is removed.  Pagination past `offset ≥ total` continues
until an empty or invalid page or the stop identifier (see the
counterexample for the extra fetch this causes). -/
theorem total_count_unused (sid : Option String) (rs : List TradesResponse)
    (st st' : TST) (h : st.obs = st'.obs) :
    (tradesLoop sid st rs).obs = (tradesLoop sid st' (rs.map eraseCount)).obs := by
  obtain ⟨acc, seen, latest, t, fd, f, pr, nc⟩ := st
  obtain ⟨acc', seen', latest', t', fd', f', pr', nc'⟩ := st'
  simp only [TST.obs, Prod.mk.injEq] at h
  obtain ⟨h1, h2, h3, h4, h5, h6, h7⟩ := h
  subst h1; subst h2; subst h3; subst h4; subst h5; subst h6; subst h7
  exact tradesLoop_total_irrel sid rs acc seen latest t t' fd f pr nc

/-- Witness for C8: the counterexample script with its count removed
behaves identically. -/
theorem total_count_unused_witness :
    (tradesLoop none initTST
      [TradesResponse.page [("T1", sampleRec)] (some 1),
       TradesResponse.page [] none]).obs
    = (tradesLoop none initTST
        ([TradesResponse.page [("T1", sampleRec)] (some 1),
          TradesResponse.page [] none].map eraseCount)).obs :=
  total_count_unused none
    [TradesResponse.page [("T1", sampleRec)] (some 1), TradesResponse.page [] none]
    initTST initTST rfl

/-! ## C6 — Dedup Accumulator -/

/-- When the stop identifier matches no record of the batch, the inner
trade loop never stops, keeps `seen` in lockstep with the accumulator's
keys, adds exactly the batch's ids to the key set, and preserves
key-distinctness. -/
lemma ptb_add_all (sid : Option String) :
    ∀ (items acc : List (String × ApiRecord)) (seen : List String) (n : Nat),
    (∀ p ∈ items, some p.1 ≠ sid) → seen = acc.map Prod.fst →
    (processTradesBatch sid items acc seen n).stopped = false
    ∧ (processTradesBatch sid items acc seen n).seen
        = (processTradesBatch sid items acc seen n).acc.map Prod.fst
    ∧ ((processTradesBatch sid items acc seen n).acc.map Prod.fst).toFinset
        = (acc.map Prod.fst).toFinset ∪ (items.map Prod.fst).toFinset
    ∧ ((acc.map Prod.fst).Nodup →
        ((processTradesBatch sid items acc seen n).acc.map Prod.fst).Nodup) := by
  intro items
  induction items with
  | nil =>
    intro acc seen n hno hseen
    simp [processTradesBatch, hseen]
  | cons p rest ih =>
    obtain ⟨tid, td⟩ := p
    intro acc seen n hno hseen
    have hnid : ¬ (some tid = sid) := hno (tid, td) (by simp)
    have hno' : ∀ q ∈ rest, some q.1 ≠ sid := fun q hq => hno q (by simp [hq])
    by_cases hmem : tid ∈ seen
    · have hmem' : tid ∈ acc.map Prod.fst := hseen ▸ hmem
      simp only [processTradesBatch, if_neg hnid, if_pos hmem]
      obtain ⟨o1, o2, o3, o4⟩ := ih acc seen n hno' hseen
      refine ⟨o1, o2, ?_, o4⟩
      simp only [List.map_cons, List.toFinset_cons]
      rw [o3, Finset.union_insert,
        Finset.insert_eq_self.mpr
          (Finset.mem_union_left _ (List.mem_toFinset.mpr hmem'))]
    · have hmem' : tid ∉ acc.map Prod.fst := fun hx => hmem (hseen ▸ hx)
      simp only [processTradesBatch, if_neg hnid, if_neg hmem]
      have hseen2 : seen ++ [tid] = (acc ++ [(tid, td)]).map Prod.fst := by
        simp [hseen]
      obtain ⟨o1, o2, o3, o4⟩ := ih (acc ++ [(tid, td)]) (seen ++ [tid]) (n + 1) hno' hseen2
      refine ⟨o1, o2, ?_, ?_⟩
      · rw [o3]
        simp only [List.map_append, List.map_cons, List.map_nil, List.toFinset_append,
          List.toFinset_cons, List.toFinset_nil]
        ext x
        simp
        tauto
      · intro hnd
        apply o4
        simp only [List.map_append, List.map_cons, List.map_nil]
        rw [List.nodup_append]
        refine ⟨hnd, List.nodup_singleton tid, ?_⟩
        intro a ha hb
        simp at hb
        subst hb
        exact hmem' ha

/-- Loop invariant of `get_trade_history` with no stop identifier: the
accumulator's keys are distinct and form exactly the set of ids of the
processed batches. -/
lemma tradesLoop_none_inv :
    ∀ (rs : List TradesResponse) (st : TST),
    st.seen = st.acc.map Prod.fst →
    (st.acc.map Prod.fst).Nodup →
    (st.acc.map Prod.fst).toFinset = ((st.processed.flatten).map Prod.fst).toFinset →
    ((tradesLoop none st rs).acc.map Prod.fst).Nodup
    ∧ ((tradesLoop none st rs).acc.map Prod.fst).toFinset
        = (((tradesLoop none st rs).processed.flatten).map Prod.fst).toFinset
    ∧ (tradesLoop none st rs).seen = (tradesLoop none st rs).acc.map Prod.fst := by
  intro rs
  induction rs with
  | nil => intro st h1 h2 h3; exact ⟨h2, h3, h1⟩
  | cons r rest ih =>
    intro st h1 h2 h3
    cases r with
    | invalid => exact ⟨h2, h3, h1⟩
    | page items c =>
      by_cases hi : items.isEmpty
      · rw [List.isEmpty_iff] at hi
        subst hi
        exact ⟨h2, h3, h1⟩
      · obtain ⟨o1, o2, o3, o4⟩ :=
          ptb_add_all none items st.acc st.seen 0 (by simp) h1
        have hfin : ((processTradesBatch none items st.acc st.seen 0).acc.map
            Prod.fst).toFinset
            = (((st.processed ++ [items]).flatten).map Prod.fst).toFinset := by
          rw [o3, h3]
          simp [List.flatten_append]
        cases hfd : st.firstDone with
        | true =>
          simp only [tradesLoop, hi, hfd, if_true, if_false, o1,
            Bool.false_eq_true, ite_true, ite_false]
          exact ih _ o2 (o4 h2) hfin
        | false =>
          simp only [tradesLoop, hi, hfd, if_true, if_false, o1,
            Bool.false_eq_true, ite_true, ite_false]
          exact ih _ o2 (o4 h2) hfin

/-- With no watermark, the rewards inner loop cannot raise; it never
stops, keeps `seen` in lockstep, adds exactly the staking batch's ids,
and preserves key-distinctness. -/
lemma prb_none_add_all :
    ∀ (items acc : List (String × ApiRecord)) (seen : List String) (n : Nat),
    seen = acc.map Prod.fst →
    ∃ out, processRewardsBatch none items acc seen n = .ok out
    ∧ out.seen = out.acc.map Prod.fst
    ∧ (out.acc.map Prod.fst).toFinset
        = (acc.map Prod.fst).toFinset ∪ (items.map Prod.fst).toFinset
    ∧ ((acc.map Prod.fst).Nodup → (out.acc.map Prod.fst).Nodup) := by
  intro items
  induction items with
  | nil =>
    intro acc seen n hseen
    exact ⟨⟨acc, seen, n⟩, rfl, hseen, by simp, fun h => h⟩
  | cons p rest ih =>
    obtain ⟨eid, ed⟩ := p
    intro acc seen n hseen
    by_cases hmem : eid ∈ seen
    · have hmem' : eid ∈ acc.map Prod.fst := hseen ▸ hmem
      obtain ⟨out, o0, o1, o2, o3⟩ := ih acc seen n hseen
      refine ⟨out, ?_, o1, ?_, o3⟩
      · simpa [processRewardsBatch, hmem] using o0
      · simp only [List.map_cons, List.toFinset_cons]
        rw [o2, Finset.union_insert,
          Finset.insert_eq_self.mpr
            (Finset.mem_union_left _ (List.mem_toFinset.mpr hmem'))]
    · have hmem' : eid ∉ acc.map Prod.fst := fun hx => hmem (hseen ▸ hx)
      have hseen2 : seen ++ [eid] = (acc ++ [(eid, ed)]).map Prod.fst := by
        simp [hseen]
      obtain ⟨out, o0, o1, o2, o3⟩ := ih (acc ++ [(eid, ed)]) (seen ++ [eid]) (n + 1) hseen2
      refine ⟨out, ?_, o1, ?_, ?_⟩
      · simpa [processRewardsBatch, hmem] using o0
      · rw [o2]
        simp only [List.map_append, List.map_cons, List.map_nil, List.toFinset_append,
          List.toFinset_cons, List.toFinset_nil]
        ext x
        simp
        tauto
      · intro hnd
        apply o3
        simp only [List.map_append, List.map_cons, List.map_nil]
        rw [List.nodup_append]
        refine ⟨hnd, List.nodup_singleton eid, ?_⟩
        intro a ha hb
        simp at hb
        subst hb
        exact hmem' ha

/-- One unfolding of the rewards pagination loop on a non-empty ledger
page whose inner loop succeeded. -/
lemma rewardsLoop_cons_page (minT : Option Int) (st : RST)
    (ledger : List (String × ApiRecord)) (rest : List LedgerResponse)
    (out : RBatchOut)
    (hl : ¬ ledger.isEmpty)
    (hpb : processRewardsBatch minT (stakingOf ledger) st.acc st.seen 0 = .ok out) :
    rewardsLoop minT st (LedgerResponse.page ledger :: rest)
      = (if out.newAdded = 0 then
          .ok ⟨out.acc, out.seen, st.fetches + 1, st.processed ++ [stakingOf ledger],
               st.newCounts ++ [out.newAdded]⟩
        else if ledger.length < 50 then
          .ok ⟨out.acc, out.seen, st.fetches + 1, st.processed ++ [stakingOf ledger],
               st.newCounts ++ [out.newAdded]⟩
        else rewardsLoop minT
          ⟨out.acc, out.seen, st.fetches + 1, st.processed ++ [stakingOf ledger],
           st.newCounts ++ [out.newAdded]⟩ rest) := by
  simp [rewardsLoop, hl, hpb]

/-- Loop invariant of `get_staking_rewards` with no watermark: the
accumulator's keys are distinct and form exactly the set of ids of the
processed staking batches. -/
lemma rewardsLoop_none_inv :
    ∀ (rs : List LedgerResponse) (st st' : RST),
    rewardsLoop none st rs = .ok st' →
    st.seen = st.acc.map Prod.fst →
    (st.acc.map Prod.fst).Nodup →
    (st.acc.map Prod.fst).toFinset = ((st.processed.flatten).map Prod.fst).toFinset →
    (st'.acc.map Prod.fst).Nodup
    ∧ (st'.acc.map Prod.fst).toFinset
        = ((st'.processed.flatten).map Prod.fst).toFinset := by
  intro rs
  induction rs with
  | nil =>
    intro st st' hloop h1 h2 h3
    cases Except.ok.inj hloop
    exact ⟨h2, h3⟩
  | cons r rest ih =>
    intro st st' hloop h1 h2 h3
    cases r with
    | invalid =>
      cases Except.ok.inj hloop
      exact ⟨h2, h3⟩
    | page ledger =>
      by_cases hl : ledger.isEmpty
      · rw [List.isEmpty_iff] at hl
        subst hl
        cases Except.ok.inj hloop
        exact ⟨h2, h3⟩
      · obtain ⟨out, o0, o1, o2, o3⟩ :=
          prb_none_add_all (stakingOf ledger) st.acc st.seen 0 h1
        rw [rewardsLoop_cons_page none st ledger rest out hl o0] at hloop
        have h3' : (out.acc.map Prod.fst).toFinset
            = (((st.processed ++ [stakingOf ledger]).flatten).map Prod.fst).toFinset := by
          rw [o2, h3]
          simp [List.flatten_append]
        by_cases hz : out.newAdded = 0
        · rw [if_pos hz] at hloop
          cases Except.ok.inj hloop
          exact ⟨o3 h2, h3'⟩
        · rw [if_neg hz] at hloop
          by_cases h50 : ledger.length < 50
          · rw [if_pos h50] at hloop
            cases Except.ok.inj hloop
            exact ⟨o3 h2, h3'⟩
          · rw [if_neg h50] at hloop
            exact ih _ st' hloop o1 (o3 h2) h3'

/-- C6: with no stop identifier and no watermark filtering, the
accumulator of either sync never holds a duplicate id, and its final size
is the number of distinct ids across all processed batches. -/
theorem dedup_accumulator_spec :
    (∀ rs : List TradesResponse,
      ((tradesLoop none initTST rs).acc.map Prod.fst).Nodup
      ∧ (tradesLoop none initTST rs).acc.length
          = ((((tradesLoop none initTST rs).processed.flatten).map Prod.fst).toFinset).card)
    ∧ (∀ (rs : List LedgerResponse) (st : RST), rewardsLoop none initRST rs = .ok st →
      (st.acc.map Prod.fst).Nodup
      ∧ st.acc.length = (((st.processed.flatten).map Prod.fst).toFinset).card) := by
  constructor
  · intro rs
    obtain ⟨h2, h3, h1⟩ :=
      tradesLoop_none_inv rs initTST rfl (by simp [initTST]) (by simp [initTST])
    refine ⟨h2, ?_⟩
    rw [← h3, List.toFinset_card_of_nodup h2, List.length_map]
  · intro rs st hloop
    obtain ⟨h2, h3⟩ :=
      rewardsLoop_none_inv rs initRST st hloop rfl (by simp [initRST]) (by simp [initRST])
    refine ⟨h2, ?_⟩
    rw [← h3, List.toFinset_card_of_nodup h2, List.length_map]

/-- Witness for C6: a trade script repeating one page and a one-page
rewards script. -/
theorem dedup_accumulator_spec_witness :
    (((tradesLoop none initTST
        [TradesResponse.page [("X", sampleRec)] none,
         TradesResponse.page [("X", sampleRec)] none,
         TradesResponse.page [] none]).acc.map Prod.fst).Nodup
      ∧ (tradesLoop none initTST
          [TradesResponse.page [("X", sampleRec)] none,
           TradesResponse.page [("X", sampleRec)] none,
           TradesResponse.page [] none]).acc.length
        = ((((tradesLoop none initTST
            [TradesResponse.page [("X", sampleRec)] none,
             TradesResponse.page [("X", sampleRec)] none,
             TradesResponse.page [] none]).processed.flatten).map Prod.fst).toFinset).card)
    ∧ ((((⟨[("X", stakingRec 1)], ["X"], 1, [[("X", stakingRec 1)]], [1]⟩ : RST).acc.map
          Prod.fst).Nodup)
      ∧ (⟨[("X", stakingRec 1)], ["X"], 1, [[("X", stakingRec 1)]], [1]⟩ : RST).acc.length
        = ((((⟨[("X", stakingRec 1)], ["X"], 1, [[("X", stakingRec 1)]], [1]⟩ :
            RST).processed.flatten).map Prod.fst).toFinset).card) :=
  ⟨dedup_accumulator_spec.1
    [TradesResponse.page [("X", sampleRec)] none,
     TradesResponse.page [("X", sampleRec)] none,
     TradesResponse.page [] none],
   dedup_accumulator_spec.2 [LedgerResponse.page [("X", stakingRec 1)]]
     ⟨[("X", stakingRec 1)], ["X"], 1, [[("X", stakingRec 1)]], [1]⟩ rfl⟩

/-! ## C10 — rewards watermark filtering -/

/-- One unfolding of the rewards pagination loop on a non-empty ledger
page whose inner loop raised. -/
lemma rewardsLoop_cons_page_err (minT : Option Int) (st : RST)
    (ledger : List (String × ApiRecord)) (rest : List LedgerResponse) (msg : String)
    (hl : ¬ ledger.isEmpty)
    (hpb : processRewardsBatch minT (stakingOf ledger) st.acc st.seen 0 = .error msg) :
    rewardsLoop minT st (LedgerResponse.page ledger :: rest) = .error msg := by
  simp [rewardsLoop, hl, hpb]

/-- With a non-zero watermark `W`, every record the inner rewards loop
adds has a numeric time strictly greater than `W`. -/
lemma prb_time_gt (W : Int) (hW : W ≠ 0) :
    ∀ (items acc : List (String × ApiRecord)) (seen : List String) (n : Nat)
      (out : RBatchOut),
    processRewardsBatch (some W) items acc seen n = .ok out →
    (∀ p ∈ acc, ∃ q : ℚ, p.2.time = some (TimeVal.num q) ∧ (W : ℚ) < q) →
    ∀ p ∈ out.acc, ∃ q : ℚ, p.2.time = some (TimeVal.num q) ∧ (W : ℚ) < q := by
  intro items
  induction items with
  | nil =>
    intro acc seen n out h hacc
    cases Except.ok.inj h
    exact hacc
  | cons p rest ih =>
    obtain ⟨eid, ed⟩ := p
    intro acc seen n out h hacc
    cases ht : ed.time with
    | none => simp [processRewardsBatch, ht, hW, pyLeTime] at h
    | some tv =>
      cases tv with
      | str s => simp [processRewardsBatch, ht, hW, pyLeTime] at h
      | num q =>
        by_cases hle : q ≤ (W : ℚ)
        · simp only [processRewardsBatch, ht, hW, pyLeTime, ne_eq,
            not_false_eq_true, if_true, ite_true, decide_eq_true_eq, if_pos hle,
            decide_eq_true hle] at h
          exact ih acc seen n out h hacc
        · have hd : decide (q ≤ (W : ℚ)) = false := decide_eq_false hle
          by_cases hmem : eid ∈ seen
          · simp only [processRewardsBatch, ht, hW, pyLeTime, ne_eq,
              not_false_eq_true, if_true, ite_true, hd, Bool.false_eq_true,
              if_false, ite_false, if_pos hmem] at h
            exact ih acc seen n out h hacc
          · simp only [processRewardsBatch, ht, hW, pyLeTime, ne_eq,
              not_false_eq_true, if_true, ite_true, hd, Bool.false_eq_true,
              if_false, ite_false, if_neg hmem] at h
            refine ih _ _ _ out h ?_
            intro p hp
            rcases List.mem_append.mp hp with hploc | hpnew
            · exact hacc p hploc
            · have : p = (eid, ed) := by simpa using hpnew
              subst this
              exact ⟨q, ht, lt_of_not_le hle⟩

/-- With a non-zero watermark `W`, the rewards loop only accumulates
records with numeric time strictly greater than `W`. -/
lemma rewardsLoop_time_gt (W : Int) (hW : W ≠ 0) :
    ∀ (rs : List LedgerResponse) (st st' : RST),
    rewardsLoop (some W) st rs = .ok st' →
    (∀ p ∈ st.acc, ∃ q : ℚ, p.2.time = some (TimeVal.num q) ∧ (W : ℚ) < q) →
    ∀ p ∈ st'.acc, ∃ q : ℚ, p.2.time = some (TimeVal.num q) ∧ (W : ℚ) < q := by
  intro rs
  induction rs with
  | nil =>
    intro st st' hloop hacc
    cases Except.ok.inj hloop
    exact hacc
  | cons r rest ih =>
    intro st st' hloop hacc
    cases r with
    | invalid =>
      cases Except.ok.inj hloop
      exact hacc
    | page ledger =>
      by_cases hl : ledger.isEmpty
      · rw [List.isEmpty_iff] at hl
        subst hl
        cases Except.ok.inj hloop
        exact hacc
      · cases hpb : processRewardsBatch (some W) (stakingOf ledger) st.acc st.seen 0 with
        | error msg =>
          rw [rewardsLoop_cons_page_err (some W) st ledger rest msg hl hpb] at hloop
          simp at hloop
        | ok out =>
          have hout := prb_time_gt W hW (stakingOf ledger) st.acc st.seen 0 out hpb hacc
          rw [rewardsLoop_cons_page (some W) st ledger rest out hl hpb] at hloop
          by_cases hz : out.newAdded = 0
          · rw [if_pos hz] at hloop
            cases Except.ok.inj hloop
            exact hout
          · rw [if_neg hz] at hloop
            by_cases h50 : ledger.length < 50
            · rw [if_pos h50] at hloop
              cases Except.ok.inj hloop
              exact hout
            · rw [if_neg h50] at hloop
              exact ih _ st' hloop hout

/-- With a non-zero watermark `W`, a staking batch whose entries all have
numeric time at most `W` is skipped wholesale: nothing is added and the
new-records counter stays put. -/
lemma prb_all_skip (W : Int) (hW : W ≠ 0) :
    ∀ (items acc : List (String × ApiRecord)) (seen : List String) (n : Nat),
    (∀ p ∈ items, ∃ q : ℚ, p.2.time = some (TimeVal.num q) ∧ q ≤ (W : ℚ)) →
    processRewardsBatch (some W) items acc seen n = .ok ⟨acc, seen, n⟩ := by
  intro items
  induction items with
  | nil => intro acc seen n hall; rfl
  | cons p rest ih =>
    obtain ⟨eid, ed⟩ := p
    intro acc seen n hall
    obtain ⟨q, hq, hle⟩ := hall (eid, ed) (by simp)
    have hq' : ed.time = some (TimeVal.num q) := hq
    simp only [processRewardsBatch, hq', hW, pyLeTime, ne_eq, not_false_eq_true,
      if_true, ite_true, decide_eq_true hle]
    exact ih acc seen n (fun p hp => hall p (by simp [hp]))

/-- C10 (amended): when the loaded rewards watermark `W` is non-zero,
every record returned by `get_staking_rewards` has a numeric time
strictly greater than `W`, and a non-empty batch whose staking entries
all have time at most `W` adds nothing and terminates pagination (the
remaining script is never fetched).  When `W = 0`, Python truthiness
disables the filter entirely (see the counterexample). -/
theorem rewards_watermark_filter (W : Int) (hW : W ≠ 0) :
    (∀ (now : Int) (rs : List LedgerResponse) (recs : List (String × ApiRecord))
        (md : List (String × MValue)),
      get_staking_rewards (some W) now rs = .ok (recs, md) →
      ∀ p ∈ recs, ∃ q : ℚ, p.2.time = some (TimeVal.num q) ∧ (W : ℚ) < q)
    ∧ (∀ (st : RST) (L : List (String × ApiRecord)) (rest : List LedgerResponse),
      ¬ L.isEmpty →
      (∀ p ∈ stakingOf L, ∃ q : ℚ, p.2.time = some (TimeVal.num q) ∧ q ≤ (W : ℚ)) →
      rewardsLoop (some W) st (LedgerResponse.page L :: rest)
        = rewardsLoop (some W) st [LedgerResponse.page L]) := by
  constructor
  · intro now rs recs md hm
    unfold get_staking_rewards at hm
    split at hm
    · simp at hm
    · rename_i st heq
      split at hm
      · simp at hm
      · have hrecs := congrArg Prod.fst (Except.ok.inj hm)
        simp only at hrecs
        intro p hp
        exact rewardsLoop_time_gt W hW rs initRST st heq
          (by simp [initRST]) p (hrecs ▸ hp)
  · intro st L rest hl hall
    have hskip := prb_all_skip W hW (stakingOf L) st.acc st.seen 0 hall
    rw [rewardsLoop_cons_page (some W) st L rest ⟨st.acc, st.seen, 0⟩ hl hskip,
      rewardsLoop_cons_page (some W) st L [] ⟨st.acc, st.seen, 0⟩ hl hskip]
    simp

/-- Witness for C10: with watermark 5, a batch whose only staking entry
has time 3 terminates pagination without fetching the trailing
response. -/
theorem rewards_watermark_filter_witness :
    rewardsLoop (some 5) initRST
      [LedgerResponse.page [("L1", stakingRec 3)], LedgerResponse.invalid]
      = rewardsLoop (some 5) initRST [LedgerResponse.page [("L1", stakingRec 3)]] :=
  (rewards_watermark_filter 5 (by decide)).2 initRST [("L1", stakingRec 3)]
    [LedgerResponse.invalid] (by decide)
    (by
      intro p hp
      simp [stakingOf, stakingRec] at hp
      subst hp
      exact ⟨3, rfl, by norm_num⟩)

/-! ## C1 — resume at the stored watermark identifier -/

/-- A batch the loop can process fully without stopping: a valid,
non-empty page not containing the stored id `T`. -/
def goodPage (T : String) : TradesResponse → Prop
  | .invalid => False
  | .page items _ => items ≠ [] ∧ T ∉ items.map Prod.fst

/-- When the stored id `T` sits after the prefix `pre` of a batch, the
inner loop behaves on the whole batch exactly as on `pre`, except that it
reports the stop. -/
lemma ptb_stop (T : String) (d : ApiRecord) :
    ∀ (pre suf acc : List (String × ApiRecord)) (seen : List String) (n : Nat),
    T ∉ pre.map Prod.fst →
    processTradesBatch (some T) (pre ++ (T, d) :: suf) acc seen n
      = { processTradesBatch (some T) pre acc seen n with stopped := true } := by
  intro pre
  induction pre with
  | nil =>
    intro suf acc seen n hpre
    simp [processTradesBatch]
  | cons p rest ih =>
    obtain ⟨tid, td⟩ := p
    intro suf acc seen n hpre
    have h1 : ¬ (T = tid) ∧ T ∉ rest.map Prod.fst := by simpa using hpre
    have htid : ¬ (some tid = some T) := by
      intro h
      exact h1.1 (Option.some.inj h).symm
    by_cases hmem : tid ∈ seen
    · simp only [List.cons_append, processTradesBatch, if_neg htid, if_pos hmem]
      exact ih suf acc seen n h1.2
    · simp only [List.cons_append, processTradesBatch, if_neg htid, if_neg hmem]
      exact ih suf (acc ++ [(tid, td)]) (seen ++ [tid]) (n + 1) h1.2

/-- The loop state after fully processing one non-stopping batch. -/
def stepState (sid : Option String) (st : TST)
    (items : List (String × ApiRecord)) (c : Option Int) : TST where
  acc := (processTradesBatch sid items st.acc st.seen 0).acc
  seen := (processTradesBatch sid items st.acc st.seen 0).seen
  latest := if st.firstDone then st.latest else items.head?.map Prod.fst
  total := if st.firstDone then st.total else c
  firstDone := true
  fetches := st.fetches + 1
  processed := st.processed ++ [items]
  newCounts := st.newCounts ++ [(processTradesBatch sid items st.acc st.seen 0).newAdded]

/-- One unfolding of the trades loop on a batch where the stop id was
reached: the accumulator of the whole run is the inner loop's result. -/
lemma tradesLoop_cons_stop_acc (sid : Option String) (st : TST)
    (items : List (String × ApiRecord)) (c : Option Int)
    (rest : List TradesResponse)
    (hie : ¬ (items.isEmpty = true))
    (hstop : (processTradesBatch sid items st.acc st.seen 0).stopped = true) :
    (tradesLoop sid st (TradesResponse.page items c :: rest)).acc
      = (processTradesBatch sid items st.acc st.seen 0).acc := by
  cases hfd : st.firstDone <;> simp [tradesLoop, hie, hfd, hstop]

/-- On a stop batch, exactly one more fetch happens and the loop ends. -/
lemma tradesLoop_cons_stop_fetches (sid : Option String) (st : TST)
    (items : List (String × ApiRecord)) (c : Option Int)
    (rest : List TradesResponse)
    (hie : ¬ (items.isEmpty = true))
    (hstop : (processTradesBatch sid items st.acc st.seen 0).stopped = true) :
    (tradesLoop sid st (TradesResponse.page items c :: rest)).fetches
      = st.fetches + 1 := by
  cases hfd : st.firstDone <;> simp [tradesLoop, hie, hfd, hstop]

/-- One unfolding of the trades loop on a batch where the stop id was not
reached: the loop recurses on the stepped state. -/
lemma tradesLoop_cons_go (sid : Option String) (st : TST)
    (items : List (String × ApiRecord)) (c : Option Int)
    (rest : List TradesResponse)
    (hie : ¬ (items.isEmpty = true))
    (hstop : (processTradesBatch sid items st.acc st.seen 0).stopped = false) :
    tradesLoop sid st (TradesResponse.page items c :: rest)
      = tradesLoop sid (stepState sid st items c) rest := by
  cases hfd : st.firstDone <;> simp [tradesLoop, stepState, hie, hfd, hstop]

/-- Running the loop over good pages and then the page containing the
stored id `T` after prefix `pre`: the accumulator gains exactly the keys
of the good pages and of `pre`, and exactly one fetch per good page plus
the stop page is issued. -/
lemma tradesLoop_resume (T : String) (d : ApiRecord)
    (pre suf : List (String × ApiRecord)) (c : Option Int)
    (later : List TradesResponse) (hpre : T ∉ pre.map Prod.fst) :
    ∀ (earlier : List TradesResponse) (st : TST),
    (∀ r ∈ earlier, goodPage T r) →
    st.seen = st.acc.map Prod.fst →
    (((tradesLoop (some T) st
        (earlier ++ TradesResponse.page (pre ++ (T, d) :: suf) c :: later)).acc.map
          Prod.fst).toFinset
      = (st.acc.map Prod.fst).toFinset
        ∪ (((earlier.map pageItems).flatten).map Prod.fst).toFinset
        ∪ (pre.map Prod.fst).toFinset)
    ∧ (tradesLoop (some T) st
        (earlier ++ TradesResponse.page (pre ++ (T, d) :: suf) c :: later)).fetches
      = st.fetches + earlier.length + 1 := by
  intro earlier
  induction earlier with
  | nil =>
    intro st hg hseen
    have hno : ∀ p ∈ pre, some p.1 ≠ some T := by
      intro p hp h
      exact hpre (List.mem_map.mpr ⟨p, hp, Option.some.inj h⟩)
    obtain ⟨o1, o2, o3, o4⟩ := ptb_add_all (some T) pre st.acc st.seen 0 hno hseen
    have hstopEq := ptb_stop T d pre suf st.acc st.seen 0 hpre
    have hstop : (processTradesBatch (some T) (pre ++ (T, d) :: suf)
        st.acc st.seen 0).stopped = true := by
      rw [hstopEq]
    have hie : ¬ ((pre ++ (T, d) :: suf).isEmpty = true) := by simp
    rw [List.nil_append]
    constructor
    · rw [tradesLoop_cons_stop_acc (some T) st _ c later hie hstop, hstopEq]
      have hacc : ({ processTradesBatch (some T) pre st.acc st.seen 0 with
          stopped := true } : BatchOut).acc
          = (processTradesBatch (some T) pre st.acc st.seen 0).acc := rfl
      rw [hacc, o3]
      simp only [List.map_nil, List.flatten_nil, List.toFinset_nil]
      ext x
      simp
    · rw [tradesLoop_cons_stop_fetches (some T) st _ c later hie hstop]
      simp
  | cons r rest' ih =>
    intro st hg hseen
    cases r with
    | invalid => exact absurd (hg .invalid (by simp)) (by simp [goodPage])
    | page items ci =>
      obtain ⟨hne, hnoT⟩ := hg (.page items ci) (by simp)
      have hie : ¬ (items.isEmpty = true) := by simp [hne]
      have hno : ∀ p ∈ items, some p.1 ≠ some T := by
        intro p hp h
        exact hnoT (List.mem_map.mpr ⟨p, hp, Option.some.inj h⟩)
      obtain ⟨o1, o2, o3, o4⟩ := ptb_add_all (some T) items st.acc st.seen 0 hno hseen
      have hgrest : ∀ r ∈ rest', goodPage T r := fun r hr => hg r (by simp [hr])
      rw [List.cons_append, tradesLoop_cons_go (some T) st items ci _ hie o1]
      obtain ⟨i1, i2⟩ := ih (stepState (some T) st items ci) hgrest o2
      constructor
      · rw [i1]
        simp only [stepState]
        rw [o3]
        simp only [List.map_cons, List.flatten_cons, List.map_append,
          List.toFinset_append]
        congr 1
        exact Finset.union_assoc _ _ _
      · rw [i2]
        simp only [stepState, List.length_cons]
        omega

/-- C1 (amended): for a stored non-empty watermark id `T` first reached
in a batch of the form `pre ++ (T, d) :: suf` after a run of valid,
non-empty, `T`-free batches, `get_trade_history`'s accumulator holds
exactly the records of the earlier batches together with those of `pre`
(the positions strictly before `T`), never holds `T` itself, and
pagination stops at that batch: nothing from `suf` is added from the stop
batch (such an id appears only if some earlier batch carried it), and no
response after the stop batch is fetched. -/
theorem trades_stop_id_resume (T : String) (hT : T ≠ "") (d : ApiRecord)
    (earlier : List TradesResponse) (pre suf : List (String × ApiRecord))
    (c : Option Int) (later : List TradesResponse)
    (hg : ∀ r ∈ earlier, goodPage T r) (hpre : T ∉ pre.map Prod.fst) :
    (∀ id, id ∈ (tradesLoop (stop_at_of (some T)) initTST
        (earlier ++ TradesResponse.page (pre ++ (T, d) :: suf) c :: later)).acc.map
          Prod.fst
      ↔ (id ∈ ((earlier.map pageItems).flatten).map Prod.fst ∨ id ∈ pre.map Prod.fst))
    ∧ T ∉ (tradesLoop (stop_at_of (some T)) initTST
        (earlier ++ TradesResponse.page (pre ++ (T, d) :: suf) c :: later)).acc.map
          Prod.fst
    ∧ (tradesLoop (stop_at_of (some T)) initTST
        (earlier ++ TradesResponse.page (pre ++ (T, d) :: suf) c :: later)).fetches
      = earlier.length + 1 := by
  have hstop : stop_at_of (some T) = some T := by simp [stop_at_of, hT]
  rw [hstop]
  obtain ⟨m1, m2⟩ := tradesLoop_resume T d pre suf c later hpre earlier initTST hg rfl
  have hmem : ∀ id, id ∈ (tradesLoop (some T) initTST
      (earlier ++ TradesResponse.page (pre ++ (T, d) :: suf) c :: later)).acc.map
        Prod.fst
      ↔ (id ∈ ((earlier.map pageItems).flatten).map Prod.fst
          ∨ id ∈ pre.map Prod.fst) := by
    intro id
    rw [← List.mem_toFinset, m1]
    simp [initTST]
  refine ⟨hmem, ?_, by simpa [initTST] using m2⟩
  intro hTin
  rcases (hmem T).mp hTin with hTe | hTp
  · obtain ⟨p, hpmem, hpfst⟩ := List.mem_map.mp hTe
    obtain ⟨l, hl, hpl⟩ := List.mem_flatten.mp hpmem
    obtain ⟨r, hr, rfl⟩ := List.mem_map.mp hl
    have hgr := hg r hr
    cases r with
    | invalid => exact hgr
    | page items ci => exact hgr.2 (List.mem_map.mpr ⟨p, hpl, hpfst⟩)
  · exact hpre hTp

/-- Witness for C1: no earlier batches, the stored id "T" at position 1
of the stop batch, one record after it. -/
theorem trades_stop_id_resume_witness :
    ("T" ∉ (tradesLoop (stop_at_of (some "T")) initTST
        ([] ++ TradesResponse.page
          ([] ++ ("T", sampleRec) :: [("A", sampleRec)]) none :: [])).acc.map Prod.fst)
    ∧ (tradesLoop (stop_at_of (some "T")) initTST
        ([] ++ TradesResponse.page
          ([] ++ ("T", sampleRec) :: [("A", sampleRec)]) none :: [])).fetches
      = List.length ([] : List TradesResponse) + 1 :=
  ⟨(trades_stop_id_resume "T" (by decide) sampleRec [] [] [("A", sampleRec)] none []
      (by intro r hr; exact absurd hr (List.not_mem_nil r)) (by simp)).2.1,
   (trades_stop_id_resume "T" (by decide) sampleRec [] [] [("A", sampleRec)] none []
      (by intro r hr; exact absurd hr (List.not_mem_nil r)) (by simp)).2.2⟩
